import Mathlib

/-! FastTyping — verification of the typing-session core.

Shallow embedding of the FastTyping repository (a typing-speed trainer):
the session state machine in `App` (`initGame`, `startGame`, `endGame`,
`handleInputChange`, the timer tick), the utility functions
(`shuffleArray`, `calculateWPM`, `calculateAccuracy`, `getScoreHistory`)
and the constants (`DEFAULT_WORDS`).

JS strings are modelled as `List Char`; JS numbers that hold
nonnegative integers are modelled as `Nat` (statistics) and exact
rationals `ℚ` where the source divides before rounding.  `Math.random()`
draws are modelled by an environment-supplied function `rand : Nat → Nat`
whose value at `i` is reduced `% (i+1)` so that `floor(Math.random()*(i+1))`
can take any value in `[0, i]`.
-/

namespace FastTyping

/-- JS strings, modelled as their character lists. -/
abbrev Str := List Char

/-- Coerce a Lean string literal to the model type. -/
def strOf (s : String) : Str := s.toList

/-- JS `String.prototype.trim`: strip whitespace from both ends. -/
def trim (s : Str) : Str :=
  ((s.dropWhile Char.isWhitespace).reverse.dropWhile Char.isWhitespace).reverse

/-- JS `val.endsWith(' ')`: the last character is a space. -/
def endsWithSpace (s : Str) : Bool := s.getLast? == some ' '

/-! Part: Data model (`types.ts`) -/

/-- `GameStatus` from `types.ts`. -/
inductive GameStatus
  | idle
  | playing
  | finished
deriving DecidableEq, Repr

/-- `GameStats` from `types.ts`.  `wpm`/`accuracy` come out of
`Math.round`, hence `ℤ`; the counters are nonnegative integers. -/
structure GameStats where
  wpm : ℤ
  accuracy : ℤ
  correctWords : ℕ
  incorrectWords : ℕ
  totalKeystrokes : ℕ
  timeSpent : ℕ
deriving DecidableEq, Repr

/-- `ScoreEntry` from `types.ts`.  The `id` (a fresh random token) and
`timestamp` (`Date.now()`) are environment-generated opaque values with
no logic on them; they are not modelled. -/
structure ScoreEntry where
  topic : Str
  wpm : ℤ
  accuracy : ℤ
  correctWords : ℕ
  incorrectWords : ℕ
  totalKeystrokes : ℕ
  timeSpent : ℕ
deriving DecidableEq, Repr

/-- The four word states of `WordObject.status`. -/
inductive WordStatus
  | pending
  | correct
  | incorrect
  | active
deriving DecidableEq, Repr

/-- `WordObject` from `types.ts`. -/
structure WordObject where
  text : Str
  status : WordStatus
deriving DecidableEq, Repr

/-! Part: Utilities (`utils.ts` part of `geminiService.ts` bundle) -/

/-- The JS destructuring swap `[a[i], a[j]] = [a[j], a[i]]` on a list;
out-of-range indices leave the list unchanged (they never occur in the
shuffle loop). -/
def listSwap (l : List α) (i j : Nat) : List α :=
  match l.get? i, l.get? j with
  | some a, some b => (l.set i b).set j a
  | _, _ => l

/-- The Fisher–Yates loop of `shuffleArray`: for `i` from `newArray.length - 1`
down to `1`, swap position `i` with `j = floor(Math.random() * (i + 1))`.
The random draw for index `i` is modelled as `rand i % (i + 1)`, which
ranges over exactly the values `[0, i]` the source can produce. -/
def shuffleLoop (rand : Nat → Nat) : Nat → List α → List α
  | 0, l => l
  | i + 1, l => shuffleLoop rand i (listSwap l (i + 1) (rand (i + 1) % (i + 2)))

/-- `shuffleArray` from the source: copy the array, run the swap loop on
the copy, return it.  (The aliasing behaviour of the copy is modelled
separately with an explicit heap, see `shuffleArrayCall`.) -/
def shuffleArray (l : List α) (rand : Nat → Nat) : List α :=
  shuffleLoop rand (l.length - 1) l

/-- JS `Math.round` on the nonnegative values produced here:
round half up, `floor(x + 1/2)`. -/
def jsRound (q : ℚ) : ℤ := ⌊q + 1 / 2⌋

/-- `calculateWPM(correctWords, timeInSeconds)`:
`if (timeInSeconds <= 0) return 0; return Math.round((correctWords / timeInSeconds) * 60)`. -/
def calculateWPM (correctWords timeInSeconds : ℕ) : ℤ :=
  if timeInSeconds ≤ 0 then 0
  else jsRound ((correctWords : ℚ) / (timeInSeconds : ℚ) * 60)

/-- `calculateAccuracy(correct, incorrect)`:
`const total = correct + incorrect; if (total === 0) return 0;
return Math.round((correct / total) * 100)`. -/
def calculateAccuracy (correct incorrect : ℕ) : ℤ :=
  if correct + incorrect = 0 then 0
  else jsRound ((correct : ℚ) / ((correct : ℚ) + (incorrect : ℚ)) * 100)

/-! Part: Score persistence (`getScoreHistory`)

The `typing_scores` key of `localStorage` holds a string.  For
`getScoreHistory` only two properties of that string matter: whether it
is the serialization of a list of entries (then `JSON.parse` yields the
list) or malformed (then `JSON.parse` throws a `SyntaxError`).  The
stored payload is therefore modelled by that distinction. -/

/-- A stored `typing_scores` payload: either well-formed JSON for a list
of entries, or corrupt text (with its raw characters). -/
inductive StoredValue
  | wellFormed (entries : List ScoreEntry)
  | corrupt (raw : Str)
deriving DecidableEq, Repr

/-- `JSON.parse` on a stored payload: returns the entries, or throws on
malformed content. -/
def jsonParseScores : StoredValue → Except Str (List ScoreEntry)
  | .wellFormed es => .ok es
  | .corrupt _ => .error (strOf r"SyntaxError")

/-- `getScoreHistory()`:
`return JSON.parse(localStorage.getItem(typing_scores) || [])` (quotes elided).
`getItem` yields `null` when the key is absent; `null` and the empty
string are falsy, so those two cases parse the default empty-list text. -/
def getScoreHistory (storage : Option StoredValue) : Except Str (List ScoreEntry) :=
  match storage with
  | none => jsonParseScores (.wellFormed [])
  | some (.corrupt []) => jsonParseScores (.wellFormed [])
  | some v => jsonParseScores v

/-! Part: Constants (`constants.ts`) -/

/-- `DEFAULT_WORDS` from `constants.ts` (40 words). -/
def DEFAULT_WORDS : List Str :=
  [strOf r"the", strOf r"quick", strOf r"brown", strOf r"fox", strOf r"jumps",
   strOf r"over", strOf r"the", strOf r"lazy", strOf r"dog",
   strOf r"programming", strOf r"javascript", strOf r"typescript", strOf r"react",
   strOf r"coding", strOf r"developer",
   strOf r"software", strOf r"engineer", strOf r"performance", strOf r"interface",
   strOf r"dynamic", strOf r"component",
   strOf r"function", strOf r"variable", strOf r"constant", strOf r"database",
   strOf r"server", strOf r"cloud", strOf r"network",
   strOf r"security", strOf r"algorithm", strOf r"design", strOf r"structure",
   strOf r"system", strOf r"application",
   strOf r"mobile", strOf r"desktop", strOf r"browser", strOf r"optimization",
   strOf r"rendering", strOf r"asynchronous"]

/-! Part: The typing session (`App.tsx`)

The React component state is gathered into one record; each handler of
the source becomes a function `Session → Session`.  The timer interval
started by `startGame` and cleared by `endGame` is modelled by guarding
`tick` on `status = playing` (the interval exists exactly while the
session is playing). -/

/-- The `useState` pieces of the `App` component that carry game logic.
`history` is the in-memory score history view (`setHistory`). -/
structure Session where
  status : GameStatus
  words : List WordObject
  currentIndex : ℕ
  inputValue : Str
  timeLeft : ℕ
  duration : ℕ
  selectedTopic : Str
  stats : GameStats
  history : List ScoreEntry
deriving DecidableEq, Repr

/-- The zeroed `GameStats` used by `initGame`. -/
def zeroStats : GameStats :=
  { wpm := 0, accuracy := 0, correctWords := 0, incorrectWords := 0
    totalKeystrokes := 0, timeSpent := 0 }

/-- Default `WordObject` used for the (never-taken) out-of-range reads. -/
def wdefault : WordObject := ⟨[], .pending⟩

/-- `initGame(customWords?)`: shuffle the base words into fresh `pending`
`WordObject`s, mark the first one `active`, reset cursor, draft, timer
and counters, return to `idle`.  Callers always pass a non-empty base
list (they fall back to `DEFAULT_WORDS` otherwise); on `[]` the JS
`shuffled[0].status = active` (quotes elided) would throw, modelled here as a no-op
`set`. -/
def initGame (baseWords : List Str) (rand : Nat → Nat) (s : Session) : Session :=
  let shuffled : List WordObject :=
    (shuffleArray baseWords rand).map (fun w => ⟨w, .pending⟩)
  let shuffled := shuffled.set 0 ⟨(shuffled.getD 0 wdefault).text, .active⟩
  { s with words := shuffled, currentIndex := 0, inputValue := [],
           timeLeft := s.duration, status := .idle, stats := zeroStats }

/-- `startGame()`: enter `playing` and start the countdown interval
(the interval itself is the `tick` guard below). -/
def startGame (s : Session) : Session := { s with status := .playing }

/-- `endGame()`: clear the interval, enter `finished`, compute the final
wpm from the full configured `duration` and the final accuracy from the
two counters, build the `ScoreEntry` and append it to the history view.
(`saveScore` persists the same entry externally; the in-memory
`history` is the modelled view.  The custom-topic case stores the same
`selectedTopic` field here.) -/
def endGame (s : Session) : Session :=
  let finalWpm := calculateWPM s.stats.correctWords s.duration
  let finalAccuracy := calculateAccuracy s.stats.correctWords s.stats.incorrectWords
  let newScore : ScoreEntry :=
    { topic := s.selectedTopic, wpm := finalWpm, accuracy := finalAccuracy,
      correctWords := s.stats.correctWords, incorrectWords := s.stats.incorrectWords,
      totalKeystrokes := s.stats.totalKeystrokes, timeSpent := s.duration }
  { s with status := .finished,
           stats := { s.stats with wpm := finalWpm, accuracy := finalAccuracy },
           history := s.history ++ [newScore] }

/-- One firing of the `setInterval` callback from `startGame`: while the
session is playing, decrement `timeLeft`; when it would reach zero
(`prev <= 1`), call `endGame` and clamp the timer at `0`.  The interval
only exists while `status = playing` (created by `startGame`, cleared by
`endGame`), hence the guard. -/
def tick (s : Session) : Session :=
  if s.status = .playing then
    if s.timeLeft ≤ 1 then { endGame s with timeLeft := 0 }
    else { s with timeLeft := s.timeLeft - 1 }
  else s

/-- `handleInputChange(e)` with `val = e.target.value`.  Only reachable
while the session is not finished (the input element is not rendered in
the finished view), hence the first guard.  All reads of `words`,
`currentIndex` and `stats` in the source are the closure values of the
current render, i.e. the fields of the incoming state `s`; in
particular the stream-extension check compares the pre-advance
`currentIndex` with the pre-extension `words.length` (the
status-updating `set`s do not change the length). -/
def handleInputChange (val : Str) (rand : Nat → Nat) (s : Session) : Session :=
  if s.status = .finished then s else
  let s1 := if s.status = .idle then startGame s else s
  if endsWithSpace val then
    let typedWord := trim val
    let currentWord := (s.words.getD s.currentIndex wdefault).text
    let isCorrect := typedWord = currentWord
    -- setWords: classify the current word, mark the next one active
    let words1 := s.words.set s.currentIndex
      ⟨currentWord, if isCorrect then .correct else .incorrect⟩
    let words2 :=
      if s.currentIndex + 1 < words1.length then
        words1.set (s.currentIndex + 1)
          ⟨(words1.getD (s.currentIndex + 1) wdefault).text, .active⟩
      else words1
    -- setStats
    let stats1 :=
      { s.stats with
        correctWords := if isCorrect then s.stats.correctWords + 1
                        else s.stats.correctWords,
        incorrectWords := if isCorrect then s.stats.incorrectWords
                          else s.stats.incorrectWords + 1,
        totalKeystrokes := s.stats.totalKeystrokes + typedWord.length + 1 }
    -- stream extension: `if (currentIndex + 10 > words.length)`
    let words3 :=
      if s.currentIndex + 10 > words2.length then
        words2 ++ (shuffleArray DEFAULT_WORDS rand).map (fun w => ⟨w, .pending⟩)
      else words2
    { s1 with words := words3, stats := stats1,
              currentIndex := s.currentIndex + 1, inputValue := [] }
  else
    -- keep input character limit tied to current word + buffer
    if val.length ≤ (s.words.getD s.currentIndex wdefault).text.length + 3 then
      { s1 with inputValue := val }
    else s1

/-! Part: Operation sequences -/

/-- The externally triggered operations on a session: a draft-input
change event (with the random draws its possible stream extension
consumes), a timer tick, and a (re)initialization with a base word
list. -/
inductive Op
  | submit (val : Str) (rand : Nat → Nat)
  | tick
  | reconfig (baseWords : List Str) (rand : Nat → Nat)

/-- Apply one operation. -/
def step (s : Session) : Op → Session
  | .submit val rand => handleInputChange val rand s
  | .tick => tick s
  | .reconfig base rand => initGame base rand s

/-- Apply a sequence of operations. -/
def runOps (s : Session) (ops : List Op) : Session := ops.foldl step s

/-- Well-formedness of an operation: reinitialization is always invoked
with a non-empty base list (the source falls back to `DEFAULT_WORDS`
whenever the generated list is empty). -/
def opOK : Op → Bool
  | .reconfig base _ => !base.isEmpty
  | _ => true

/-! Part: Supporting lemmas -/

theorem getD_set_self (l : List α) (i : ℕ) (a d : α) (h : i < l.length) :
    (l.set i a).getD i d = a := by
  simp [List.getD_eq_getElem?_getD, List.getElem?_set_self', List.getElem?_eq_getElem h]

theorem getD_set_ne (l : List α) {i j : ℕ} (h : i ≠ j) (a d : α) :
    (l.set i a).getD j d = l.getD j d := by
  simp [List.getD_eq_getElem?_getD, List.getElem?_set_ne h]

theorem listSwap_length (l : List α) (i j : ℕ) :
    (listSwap l i j).length = l.length := by
  unfold listSwap; split <;> simp

theorem shuffleLoop_length (rand : Nat → Nat) (k : ℕ) (l : List α) :
    (shuffleLoop rand k l).length = l.length := by
  induction k generalizing l with
  | zero => rfl
  | succ k ih => rw [shuffleLoop, ih, listSwap_length]

theorem shuffleArray_length (l : List α) (rand : Nat → Nat) :
    (shuffleArray l rand).length = l.length :=
  shuffleLoop_length rand _ l

theorem count_set [DecidableEq α] (l : List α) (i : ℕ) (a x d : α)
    (h : i < l.length) :
    (l.set i a).count x + (if l.getD i d = x then 1 else 0)
      = l.count x + (if a = x then 1 else 0) := by
  induction l generalizing i with
  | nil => simp at h
  | cons b t ih =>
    cases i with
    | zero =>
      simp only [List.set, List.getD_cons_zero, List.count_cons, beq_iff_eq]
      by_cases hax : a = x <;> by_cases hbx : b = x <;> simp [hax, hbx]
    | succ i =>
      have hi : i < t.length := by simpa using h
      have e := ih i hi
      simp only [List.set, List.getD_cons_succ, List.count_cons, beq_iff_eq]
      omega

theorem listSwap_perm (l : List α) (i j : ℕ) : (listSwap l i j).Perm l := by
  classical
  rcases hI : l.get? i with _ | a
  · have he : listSwap l i j = l := by unfold listSwap; rw [hI]
    rw [he]
  · rcases hJ : l.get? j with _ | b
    · have he : listSwap l i j = l := by unfold listSwap; rw [hI, hJ]
      rw [he]
    · have he : listSwap l i j = (l.set i b).set j a := by
        unfold listSwap; rw [hI, hJ]
      rw [he]
      have hil : i < l.length := by
        by_contra hl
        rw [List.get?_eq_none.mpr (le_of_not_lt hl)] at hI
        exact Option.noConfusion hI
      have hjl : j < l.length := by
        by_contra hl
        rw [List.get?_eq_none.mpr (le_of_not_lt hl)] at hJ
        exact Option.noConfusion hJ
      have ha : l.getD i b = a := by rw [List.getD_eq_getD_get?, hI]; rfl
      have hb : l.getD j a = b := by rw [List.getD_eq_getD_get?, hJ]; rfl
      rw [List.perm_iff_count]
      intro x
      have e1 := count_set (l.set i b) j a x a (by simpa using hjl)
      have hgd : (l.set i b).getD j a = b := by
        by_cases hij : i = j
        · subst hij; exact getD_set_self l i b a hil
        · rw [getD_set_ne l hij b a]; exact hb
      rw [hgd] at e1
      have e2 := count_set l i b x b hil
      rw [ha] at e2
      omega

theorem shuffleLoop_perm (rand : Nat → Nat) (k : ℕ) (l : List α) :
    (shuffleLoop rand k l).Perm l := by
  induction k generalizing l with
  | zero => exact .refl l
  | succ k ih =>
    exact (ih _).trans (listSwap_perm l (k + 1) (rand (k + 1) % (k + 2)))

theorem shuffleArray_perm (l : List α) (rand : Nat → Nat) :
    (shuffleArray l rand).Perm l :=
  shuffleLoop_perm rand _ l

/-! Part: Reference semantics of `shuffleArray`

JS arrays are heap references, and `shuffleArray` begins with
`const newArray = [...array]` and then mutates only `newArray`.  To
state that the argument array is not mutated, the heap is made
explicit: a store of arrays addressed by `Nat` with an allocation
counter; a reference is valid when it is below the counter. -/

/-- A heap of arrays: contents per address, plus the next fresh address. -/
structure Heap (α : Type*) where
  data : Nat → List α
  next : Nat

/-- Overwrite the array at address `p`. -/
def heapWrite (h : Heap α) (p : Nat) (v : List α) : Heap α :=
  ⟨fun q => if q = p then v else h.data q, h.next⟩

/-- Allocate a fresh array holding `v`; returns the new heap and the
fresh address. -/
def heapAlloc (h : Heap α) (v : List α) : Heap α × Nat :=
  (⟨fun q => if q = h.next then v else h.data q, h.next + 1⟩, h.next)

/-- The Fisher–Yates loop of `shuffleArray`, acting in place on the
array stored at address `p` (each iteration performs the destructuring
swap on `newArray`). -/
def shuffleLoopInPlace (rand : Nat → Nat) (p : Nat) : Nat → Heap α → Heap α
  | 0, h => h
  | i + 1, h =>
      shuffleLoopInPlace rand p i
        (heapWrite h p (listSwap (h.data p) (i + 1) (rand (i + 1) % (i + 2))))

/-- `shuffleArray(array)` with the reference semantics explicit: copy
the contents of the argument into a fresh array (`const newArray = [...array]`),
run the swap loop in place on the fresh array, return its reference. -/
def shuffleArrayCall (h : Heap α) (arr : Nat) (rand : Nat → Nat) : Heap α × Nat :=
  let alloc := heapAlloc h (h.data arr)
  (shuffleLoopInPlace rand alloc.2 ((h.data arr).length - 1) alloc.1, alloc.2)

theorem shuffleLoopInPlace_frame (rand : Nat → Nat) (p : Nat) (k : ℕ)
    (h : Heap α) (q : Nat) (hq : q ≠ p) :
    (shuffleLoopInPlace rand p k h).data q = h.data q := by
  induction k generalizing h with
  | zero => rfl
  | succ k ih => rw [shuffleLoopInPlace, ih]; simp [heapWrite, hq]

/-- The in-place loop computes, at its own address, exactly the pure
`shuffleLoop` of the initial contents. -/
theorem shuffleLoopInPlace_at (rand : Nat → Nat) (p : Nat) (k : ℕ) (h : Heap α) :
    (shuffleLoopInPlace rand p k h).data p = shuffleLoop rand k (h.data p) := by
  induction k generalizing h with
  | zero => rfl
  | succ k ih => rw [shuffleLoopInPlace, shuffleLoop, ih]; simp [heapWrite]

/-- **C10**: `shuffleArray` never mutates its argument: for every heap
and every valid reference `arr`, the contents stored at `arr` after the
call are identical to the contents before the call — the shuffle
operates on a freshly allocated copy and returns that copy. -/
theorem shuffleArray_does_not_mutate_argument (h : Heap α) (arr : Nat)
    (rand : Nat → Nat) (harr : arr < h.next) :
    ((shuffleArrayCall h arr rand).1).data arr = h.data arr := by
  unfold shuffleArrayCall heapAlloc
  simp only
  rw [shuffleLoopInPlace_frame rand h.next _ _ arr (Nat.ne_of_lt harr)]
  simp [Nat.ne_of_lt harr]

theorem shuffleArray_does_not_mutate_argument_witness :
    (0 : Nat) < (Heap.mk (fun _ => [1, 2, 3]) 1 : Heap ℕ).next ∧
    ((shuffleArrayCall (Heap.mk (fun _ => [1, 2, 3]) 1 : Heap ℕ) 0
        (fun _ => 0)).1).data 0
      = (Heap.mk (fun _ => [1, 2, 3]) 1 : Heap ℕ).data 0 :=
  ⟨by decide,
   shuffleArray_does_not_mutate_argument _ 0 (fun _ => 0) (by decide)⟩

/-- **C8**: for every input list and every sequence of random draws,
`shuffleArray` returns a permutation of its input — the same multiset
of elements — via the Fisher–Yates pass embodied in `shuffleLoop`. -/
theorem shuffleArray_is_permutation {α : Type*} (l : List α) (rand : Nat → Nat) :
    (shuffleArray l rand).Perm l ∧
    ((shuffleArray l rand : Multiset α) = (l : Multiset α)) :=
  ⟨shuffleArray_perm l rand, Multiset.coe_eq_coe.mpr (shuffleArray_perm l rand)⟩

/-- **C5**: `calculateWPM` equals `round(correctWords / elapsedSeconds * 60)`
with `0` whenever `elapsedSeconds ≤ 0` (for `Nat` inputs: `= 0`), and
`calculateAccuracy` equals `round(correct / (correct + incorrect) * 100)`
with `0` when the denominator is `0`; concretely
`calculateWPM 30 60 = 30` and `calculateAccuracy 15 5 = 75`. -/
theorem calculateWPM_calculateAccuracy_spec (c t corr inc : ℕ) :
    calculateWPM c t = (if t = 0 then 0 else jsRound ((c : ℚ) / (t : ℚ) * 60)) ∧
    calculateAccuracy corr inc
      = (if corr + inc = 0 then 0
         else jsRound ((corr : ℚ) / ((corr : ℚ) + (inc : ℚ)) * 100)) ∧
    calculateWPM 30 60 = 30 ∧ calculateAccuracy 15 5 = 75 := by
  refine ⟨?_, rfl, ?_, ?_⟩
  · simp [calculateWPM, Nat.le_zero]
  · norm_num [calculateWPM, jsRound]
  · norm_num [calculateAccuracy, jsRound]

/-- **C9 counterexample**: a corrupt `typing_scores` payload makes
`getScoreHistory` propagate the `JSON.parse` failure (there is no
`try/catch` around it): the result is an error, not the empty
history. -/
theorem getScoreHistory_corrupt_propagates :
    getScoreHistory (some (.corrupt (strOf r"oops"))) = .error (strOf r"SyntaxError") ∧
    getScoreHistory (some (.corrupt (strOf r"oops"))) ≠ .ok [] := by
  refine ⟨rfl, fun hcontra => ?_⟩
  exact Except.noConfusion hcontra

/-- **C9 amended**: `getScoreHistory` returns the persisted history,
and the empty list when nothing (or a falsy empty string) is stored;
on malformed non-empty content the `JSON.parse` failure propagates
instead of defaulting to an empty history. -/
theorem getScoreHistory_spec (es : List ScoreEntry) (raw : Str) (hraw : raw ≠ []) :
    getScoreHistory none = .ok [] ∧
    getScoreHistory (some (.wellFormed es)) = .ok es ∧
    getScoreHistory (some (.corrupt raw)) = .error (strOf r"SyntaxError") := by
  refine ⟨rfl, rfl, ?_⟩
  cases raw with
  | nil => exact absurd rfl hraw
  | cons c cs => rfl

theorem getScoreHistory_spec_witness :
    strOf r"x" ≠ ([] : Str) ∧
    getScoreHistory (some (.corrupt (strOf r"x"))) = .error (strOf r"SyntaxError") :=
  ⟨by decide, (getScoreHistory_spec [] (strOf r"x") (by decide)).2.2⟩

/-! Part: Active-word character matching (`App.tsx`, word display)

The render loop for the current word computes `matchPart` by walking the
draft: `for (let i = 0; i < typed.length; i++) if (i < wordText.length
&& typed[i] === wordText[i] && matchPart.length === i) matchPart += typed[i]`. -/

/-- One iteration of the character-matching loop at index `i`. -/
def matchCharStep (wordText typed : Str) (matchPart : Str) (i : ℕ) : Str :=
  if i < wordText.length ∧ typed.getD i ' ' = wordText.getD i ' '
      ∧ matchPart.length = i
  then matchPart ++ [typed.getD i ' ']
  else matchPart

/-- The `matchPart` computed by the loop over `i ∈ [0, typed.length)`. -/
def matchPartOf (wordText typed : Str) : Str :=
  (List.range typed.length).foldl (matchCharStep wordText typed) []

/-- `matchedPrefixLength(target, draft)`: the length of the computed
`matchPart`. -/
def matchedPrefixLength (target draft : Str) : ℕ :=
  (matchPartOf target draft).length

/-- Spec-side definition for comparison: the length of the longest
common prefix of draft and target, halting at the first mismatch. -/
def lcpLength : Str → Str → ℕ
  | t :: ts, d :: ds => if d = t then lcpLength ts ds + 1 else 0
  | _, _ => 0

theorem lcpLength_le_left : ∀ t d : Str, lcpLength t d ≤ t.length := by
  intro t
  induction t with
  | nil => intro d; cases d <;> simp [lcpLength]
  | cons c ts ih =>
    intro d
    cases d with
    | nil => simp [lcpLength]
    | cons e ds =>
      simp only [lcpLength, List.length_cons]
      split
      · exact Nat.succ_le_succ (ih ds)
      · exact Nat.zero_le _

theorem lcpLength_le_right : ∀ t d : Str, lcpLength t d ≤ d.length := by
  intro t
  induction t with
  | nil => intro d; cases d <;> simp [lcpLength]
  | cons c ts ih =>
    intro d
    cases d with
    | nil => simp [lcpLength]
    | cons e ds =>
      simp only [lcpLength, List.length_cons]
      split
      · exact Nat.succ_le_succ (ih ds)
      · exact Nat.zero_le _

theorem lcpLength_lt_char : ∀ (t d : Str) (i : ℕ),
    i < lcpLength t d → d.getD i ' ' = t.getD i ' ' := by
  intro t
  induction t with
  | nil => intro d i h; cases d <;> simp [lcpLength] at h
  | cons c ts ih =>
    intro d i h
    cases d with
    | nil => simp [lcpLength] at h
    | cons e ds =>
      simp only [lcpLength] at h
      split at h
      · cases i with
        | zero => simpa [List.getD_cons_zero]
        | succ i =>
          simp only [List.getD_cons_succ]
          exact ih ds i (by omega)
      · omega

theorem lcpLength_stop : ∀ t d : Str,
    lcpLength t d < t.length → lcpLength t d < d.length →
    d.getD (lcpLength t d) ' ' ≠ t.getD (lcpLength t d) ' ' := by
  intro t
  induction t with
  | nil => intro d ht _; simp at ht
  | cons c ts ih =>
    intro d ht hd
    cases d with
    | nil => simp at hd
    | cons e ds =>
      simp only [lcpLength] at ht hd ⊢
      split
      case isTrue hec =>
        rw [if_pos hec] at ht hd
        simp only [List.getD_cons_succ]
        exact ih ds (by simpa using ht) (by simpa using hd)
      case isFalse hec =>
        simpa [List.getD_cons_zero] using hec

theorem matchLoop_take (wordText typed : Str) (k : ℕ) (hk : k ≤ typed.length) :
    (List.range k).foldl (matchCharStep wordText typed) [] =
      typed.take (min k (lcpLength wordText typed)) := by
  induction k with
  | zero => simp
  | succ k ih =>
    have hklt : k < typed.length := Nat.lt_of_succ_le hk
    rw [List.range_succ, List.foldl_append, ih (le_of_lt hklt)]
    simp only [List.foldl_cons, List.foldl_nil]
    unfold matchCharStep
    have hL := lcpLength_le_left wordText typed
    have hlen : (typed.take (min k (lcpLength wordText typed))).length
        = min k (lcpLength wordText typed) := by
      simp only [List.length_take]
      omega
    by_cases hkL : k < lcpLength wordText typed
    · have h1 : k < wordText.length := lt_of_lt_of_le hkL hL
      have h2 : typed.getD k ' ' = wordText.getD k ' ' :=
        lcpLength_lt_char wordText typed k hkL
      have h3 : min k (lcpLength wordText typed) = k := by omega
      rw [if_pos ⟨h1, h2, by rw [hlen, h3]⟩, h3]
      have h4 : min (k + 1) (lcpLength wordText typed) = k + 1 := by omega
      rw [h4, List.take_succ, List.getElem?_eq_getElem hklt]
      simp [List.getD_eq_getElem?_getD, List.getElem?_eq_getElem hklt]
    · have h3 : min k (lcpLength wordText typed)
          = lcpLength wordText typed := by omega
      have h4 : min (k + 1) (lcpLength wordText typed)
          = lcpLength wordText typed := by omega
      rw [if_neg ?_, h3, h4]
      rintro ⟨h1, h2, h5⟩
      rw [hlen, h3] at h5
      exact lcpLength_stop wordText typed (by omega) (by omega)
        (by rw [h5]; exact h2)

/-- **C7**: the matched-prefix computation returns the length of the
longest common prefix of target and draft — the match run halts at the
first mismatch even if later characters coincide; in particular
`matchedPrefixLength("hello", "heLLo") = 2`. -/
theorem matchedPrefixLength_is_lcp (target draft : Str) :
    matchedPrefixLength target draft = lcpLength target draft ∧
    matchedPrefixLength (strOf r"hello") (strOf r"heLLo") = 2 := by
  constructor
  · unfold matchedPrefixLength matchPartOf
    rw [matchLoop_take target draft draft.length (le_refl _)]
    have hR := lcpLength_le_right target draft
    have : min draft.length (lcpLength target draft)
        = lcpLength target draft := by omega
    rw [this, List.length_take]
    omega
  · decide

/-! Part: Session lemmas and claims -/

theorem ifStartGame_words (s : Session) :
    (if s.status = .idle then startGame s else s).words = s.words := by
  split <;> rfl

theorem ifStartGame_currentIndex (s : Session) :
    (if s.status = .idle then startGame s else s).currentIndex
      = s.currentIndex := by
  split <;> rfl

theorem ifStartGame_inputValue (s : Session) :
    (if s.status = .idle then startGame s else s).inputValue
      = s.inputValue := by
  split <;> rfl

theorem ifStartGame_stats (s : Session) :
    (if s.status = .idle then startGame s else s).stats = s.stats := by
  split <;> rfl

/-- Replacing a word by one with the same text (any status) preserves
the text sequence. -/
theorem map_text_set (l : List WordObject) (i : ℕ) (st : WordStatus) :
    (l.set i ⟨(l.getD i wdefault).text, st⟩).map WordObject.text
      = l.map WordObject.text := by
  induction l generalizing i with
  | nil => rfl
  | cons w t ih =>
    cases i with
    | zero => simp [List.getD_cons_zero]
    | succ i => simp only [List.set, List.getD_cons_succ, List.map_cons, ih]

/-- Reading below the length of the left part of an `if`-guarded
append. -/
theorem getD_if_append {c : Prop} [Decidable c] (l app : List α) (i : ℕ)
    (d : α) (h : i < l.length) :
    (if c then l ++ app else l).getD i d = l.getD i d := by
  split
  · exact List.getD_append l app d i h
  · rfl

/-- Reading away from the index of an `if`-guarded `set`. -/
theorem getD_if_set_ne {c : Prop} [Decidable c] (l : List α) {i j : ℕ}
    (h : i ≠ j) (a d : α) :
    (if c then l.set i a else l).getD j d = l.getD j d := by
  split
  · exact getD_set_ne l h a d
  · rfl

/-- Reading at the index of an `if`-guarded `set` whose guard holds. -/
theorem getD_if_set_self {c : Prop} [Decidable c] (l : List α) (i : ℕ)
    (a d : α) (hc : c) (h : i < l.length) :
    (if c then l.set i a else l).getD i d = a := by
  rw [if_pos hc]; exact getD_set_self l i a d h

theorem length_if_set {c : Prop} [Decidable c] (l : List α) (i : ℕ) (a : α) :
    (if c then l.set i a else l).length = l.length := by
  split <;> simp

/-- A blank session used as the starting point of concrete runs. -/
def blankSession : Session :=
  { status := .idle, words := [], currentIndex := 0, inputValue := [],
    timeLeft := 0, duration := 15, selectedTopic := strOf r"random",
    stats := zeroStats, history := [] }

/-- The random supply `i ↦ i` draws `j = i % (i+1) = i` at every step,
so the modelled shuffle is the identity permutation. -/
def idRand : Nat → Nat := fun i => i

/-- A tiny reachable-shaped playing session used as concrete input for
witnesses. -/
def sesTiny : Session :=
  { status := .playing,
    words := [⟨strOf r"aa", .active⟩, ⟨strOf r"bb", .pending⟩],
    currentIndex := 0, inputValue := [], timeLeft := 15, duration := 15,
    selectedTopic := strOf r"random", stats := zeroStats, history := [] }

/-- **C1**: for every non-finished session and every input ending in
the space separator, `handleInputChange` extracts `typed = trim(val)`,
marks the active word `correct` iff `typed` equals its text (else
`incorrect`), increments exactly the corresponding counter, adds
`len(typed) + 1` to `totalKeystrokes`, advances the cursor by one,
marks the next word `active` when one exists, and clears the draft. -/
theorem submit_classifies_and_advances (s : Session) (val : Str)
    (rand : Nat → Nat)
    (hstatus : s.status ≠ .finished)
    (hval : endsWithSpace val = true)
    (hcur : s.currentIndex < s.words.length) :
    (handleInputChange val rand s).stats.totalKeystrokes
        = s.stats.totalKeystrokes + (trim val).length + 1 ∧
    (handleInputChange val rand s).currentIndex = s.currentIndex + 1 ∧
    (handleInputChange val rand s).inputValue = [] ∧
    (trim val = (s.words.getD s.currentIndex wdefault).text →
      (handleInputChange val rand s).words.getD s.currentIndex wdefault
          = ⟨(s.words.getD s.currentIndex wdefault).text, .correct⟩ ∧
      (handleInputChange val rand s).stats.correctWords
          = s.stats.correctWords + 1 ∧
      (handleInputChange val rand s).stats.incorrectWords
          = s.stats.incorrectWords) ∧
    (trim val ≠ (s.words.getD s.currentIndex wdefault).text →
      (handleInputChange val rand s).words.getD s.currentIndex wdefault
          = ⟨(s.words.getD s.currentIndex wdefault).text, .incorrect⟩ ∧
      (handleInputChange val rand s).stats.incorrectWords
          = s.stats.incorrectWords + 1 ∧
      (handleInputChange val rand s).stats.correctWords
          = s.stats.correctWords) ∧
    (s.currentIndex + 1 < s.words.length →
      ((handleInputChange val rand s).words.getD (s.currentIndex + 1)
          wdefault).status = .active) := by
  simp only [handleInputChange, eq_false hstatus, if_false, hval, if_true]
  refine ⟨trivial, trivial, trivial, ?_, ?_, ?_⟩
  · intro h
    simp only [if_pos h]
    refine ⟨?_, trivial, trivial⟩
    rw [getD_if_append]
    · rw [getD_if_set_ne _ (Nat.succ_ne_self s.currentIndex)]
      exact getD_set_self s.words s.currentIndex _ wdefault hcur
    · rw [length_if_set, List.length_set]; exact hcur
  · intro h
    simp only [if_neg h]
    refine ⟨?_, trivial, trivial⟩
    rw [getD_if_append]
    · rw [getD_if_set_ne _ (Nat.succ_ne_self s.currentIndex)]
      exact getD_set_self s.words s.currentIndex _ wdefault hcur
    · rw [length_if_set, List.length_set]; exact hcur
  · intro h2
    rw [getD_if_append]
    · rw [getD_if_set_self]
      · rw [List.length_set]; exact h2
      · rw [List.length_set]; exact h2
    · rw [length_if_set, List.length_set]; exact h2

theorem submit_classifies_and_advances_witness :
    sesTiny.status ≠ GameStatus.finished ∧
    endsWithSpace (strOf r"aa ") = true ∧
    sesTiny.currentIndex < sesTiny.words.length ∧
    (handleInputChange (strOf r"aa ") idRand sesTiny).currentIndex
        = sesTiny.currentIndex + 1 ∧
    (handleInputChange (strOf r"aa ") idRand sesTiny).inputValue = [] :=
  ⟨by decide, by decide, by decide,
   (submit_classifies_and_advances sesTiny (strOf r"aa ") idRand (by decide)
      (by decide) (by decide)).2.1,
   (submit_classifies_and_advances sesTiny (strOf r"aa ") idRand (by decide)
      (by decide) (by decide)).2.2.1⟩

/-- The invariant claimed for the session state machine:
`correctWords + incorrectWords = cursor`, and the cursor is a valid
index into the word sequence. -/
def sessionInv (s : Session) : Prop :=
  s.stats.correctWords + s.stats.incorrectWords = s.currentIndex ∧
  s.currentIndex < s.words.length

theorem initGame_inv (base : List Str) (rand : Nat → Nat) (s : Session)
    (hb : base ≠ []) : sessionInv (initGame base rand s) := by
  constructor
  · rfl
  · show 0 < _
    simp only [initGame, List.length_set, List.length_map, shuffleArray_length]
    exact List.length_pos.mpr hb

theorem tick_inv (s : Session) (h : sessionInv s) : sessionInv (tick s) := by
  unfold tick endGame
  split_ifs <;> exact h

theorem handleInputChange_inv (s : Session) (val : Str) (rand : Nat → Nat)
    (h : sessionInv s) : sessionInv (handleInputChange val rand s) := by
  obtain ⟨hcnt, hcur⟩ := h
  by_cases hfin : s.status = .finished
  · unfold handleInputChange
    rw [if_pos hfin]
    exact ⟨hcnt, hcur⟩
  · unfold handleInputChange
    rw [if_neg hfin]
    by_cases hsp : endsWithSpace val = true
    · rw [if_pos hsp]
      refine ⟨?_, ?_⟩
      · dsimp only
        split_ifs <;> omega
      · dsimp only
        have h40 : DEFAULT_WORDS.length = 40 := by decide
        simp only [apply_ite List.length, List.length_append, List.length_map,
          length_if_set, List.length_set, shuffleArray_length, h40]
        split_ifs <;> omega
    · rw [if_neg hsp]
      split_ifs <;> exact ⟨hcnt, hcur⟩

theorem step_inv (s : Session) (op : Op) (h : sessionInv s)
    (hop : opOK op = true) : sessionInv (step s op) := by
  cases op with
  | submit val rand => exact handleInputChange_inv s val rand h
  | tick => exact tick_inv s h
  | reconfig base rand =>
    cases base with
    | nil => simp [opOK] at hop
    | cons a t => exact initGame_inv _ rand s (by simp)

theorem runOps_inv (s : Session) (ops : List Op) (h : sessionInv s)
    (hops : ∀ op ∈ ops, opOK op = true) : sessionInv (runOps s ops) := by
  induction ops generalizing s with
  | nil => exact h
  | cons op rest ih =>
    exact ih (step s op) (step_inv s op h (hops op (by simp)))
      (fun o ho => hops o (by simp [ho]))

/-- **C2**: for every sequence of operations (submissions, ticks,
reconfigurations with non-empty base lists) applied to a freshly
initialized session, `correctWords + incorrectWords = cursor` holds and
the cursor stays a valid index into the word sequence. -/
theorem session_invariant (base : List Str) (rand : Nat → Nat) (s : Session)
    (ops : List Op) (hb : base ≠ [])
    (hops : ∀ op ∈ ops, opOK op = true) :
    sessionInv (runOps (initGame base rand s) ops) :=
  runOps_inv _ ops (initGame_inv base rand s hb) hops

theorem session_invariant_witness :
    DEFAULT_WORDS ≠ [] ∧
    (∀ op ∈ [Op.submit (strOf r"the ") idRand, Op.tick], opOK op = true) ∧
    sessionInv (runOps (initGame DEFAULT_WORDS idRand blankSession)
      [Op.submit (strOf r"the ") idRand, Op.tick]) :=
  ⟨by decide, by decide,
   session_invariant DEFAULT_WORDS idRand blankSession
     [Op.submit (strOf r"the ") idRand, Op.tick] (by decide) (by decide)⟩

/-- **C6**: for every input that does not end in the space separator,
the draft is updated to the input iff
`len(text) ≤ len(activeWord.text) + 3`; otherwise the update is a
no-op — the previous draft is retained, and in both cases no counter,
word status or cursor changes. -/
theorem nonspace_draft_update (s : Session) (val : Str) (rand : Nat → Nat)
    (hstatus : s.status ≠ .finished)
    (hval : endsWithSpace val = false) :
    (handleInputChange val rand s).inputValue
        = (if val.length ≤ (s.words.getD s.currentIndex wdefault).text.length + 3
           then val else s.inputValue) ∧
    (handleInputChange val rand s).words = s.words ∧
    (handleInputChange val rand s).currentIndex = s.currentIndex ∧
    (handleInputChange val rand s).stats = s.stats := by
  unfold handleInputChange
  rw [if_neg hstatus, if_neg (show ¬(endsWithSpace val = true) by simp [hval])]
  split_ifs <;> exact ⟨rfl, rfl, rfl, rfl⟩

theorem nonspace_draft_update_witness :
    sesTiny.status ≠ GameStatus.finished ∧
    endsWithSpace (strOf r"abcdefg") = false ∧
    ¬(strOf r"abcdefg").length
        ≤ (sesTiny.words.getD sesTiny.currentIndex wdefault).text.length + 3 ∧
    (handleInputChange (strOf r"abcdefg") idRand sesTiny).inputValue
        = (if (strOf r"abcdefg").length
              ≤ (sesTiny.words.getD sesTiny.currentIndex wdefault).text.length + 3
           then strOf r"abcdefg" else sesTiny.inputValue) ∧
    (handleInputChange (strOf r"abcdefg") idRand sesTiny).words
        = sesTiny.words :=
  ⟨by decide, by decide, by decide,
   (nonspace_draft_update sesTiny (strOf r"abcdefg") idRand (by decide)
      (by decide)).1,
   (nonspace_draft_update sesTiny (strOf r"abcdefg") idRand (by decide)
      (by decide)).2.1⟩

theorem take_append_of_length {α : Type*} (l app : List α) (n : ℕ)
    (h : l.length = n) : (l ++ app).take n = l := by
  subst h; exact List.take_left l app

theorem drop_append_of_length {α : Type*} (l app : List α) (n : ℕ)
    (h : l.length = n) : (l ++ app).drop n = app := by
  subst h; exact List.drop_left l app

/-- Text-sequence preservation through an `if`-guarded status update. -/
theorem map_text_if_set {cnd : Prop} [Decidable cnd] (l : List WordObject)
    (i : ℕ) (st : WordStatus) :
    ((if cnd then l.set i ⟨(l.getD i wdefault).text, st⟩ else l).map
        WordObject.text) = l.map WordObject.text := by
  split
  · exact map_text_set l i st
  · rfl

/-- A 12-word base list exhibiting the extension-threshold boundary. -/
def words12 : List Str :=
  [strOf r"aa", strOf r"bb", strOf r"cc", strOf r"dd", strOf r"ee", strOf r"ff",
   strOf r"gg", strOf r"hh", strOf r"ii", strOf r"jj", strOf r"kk", strOf r"ll"]

/-- The session reached from a fresh 12-word game after submitting the
first two words. -/
def c3Before : Session :=
  runOps (initGame words12 idRand blankSession)
    [Op.submit (strOf r"aa ") idRand, Op.submit (strOf r"bb ") idRand]

/-- The state after the third submission. -/
def c3After : Session := handleInputChange (strOf r"cc ") idRand c3Before

/-- **C3 counterexample**: after the third submission of a fresh
12-word game the advanced cursor is 3 and only `12 - 3 = 9 < 10` words
remain unconsumed ahead of it, yet the sequence was not extended — its
length is still 12.  (The source triggers extension on
`currentIndex + 10 > words.length` with the pre-advance index, i.e.
only once fewer than 9 words remain ahead of the advanced cursor.) -/
theorem extension_threshold_counterexample :
    c3Before.status ≠ GameStatus.finished ∧
    endsWithSpace (strOf r"cc ") = true ∧
    c3After.currentIndex = 3 ∧
    c3After.words.length = 12 ∧
    c3After.words.length - c3After.currentIndex < 10 ∧
    c3After.words.length = c3Before.words.length := by decide

/-- **C3 amended**: a submission extends the stream exactly when the
pre-advance cursor satisfies `cursor + 10 > length` — i.e. when fewer
than 9 words would remain unconsumed ahead of the advanced cursor; the
extension appends a freshly shuffled copy of `DEFAULT_WORDS` to the
tail, dropping or truncating no existing word; otherwise the length is
unchanged, and in both cases the text of every existing word is preserved. -/
theorem extension_policy (s : Session) (val : Str) (rand : Nat → Nat)
    (hstatus : s.status ≠ .finished)
    (hval : endsWithSpace val = true) :
    (s.currentIndex + 10 > s.words.length →
      (handleInputChange val rand s).words.length
          = s.words.length + DEFAULT_WORDS.length ∧
      ((handleInputChange val rand s).words.take s.words.length).map
          WordObject.text = s.words.map WordObject.text ∧
      (((handleInputChange val rand s).words.drop s.words.length).map
          WordObject.text).Perm DEFAULT_WORDS) ∧
    (s.currentIndex + 10 ≤ s.words.length →
      (handleInputChange val rand s).words.length = s.words.length ∧
      (handleInputChange val rand s).words.map WordObject.text
          = s.words.map WordObject.text) := by
  simp only [handleInputChange, eq_false hstatus, if_false, hval, if_true]
  simp only [length_if_set, List.length_set]
  constructor
  · intro hext
    rw [if_pos hext]
    refine ⟨?_, ?_, ?_⟩
    · simp only [List.length_append, length_if_set, List.length_set,
        List.length_map, shuffleArray_length]
    · have h2 : (if s.currentIndex + 1 < s.words.length
            then (s.words.set s.currentIndex
              ⟨(s.words.getD s.currentIndex wdefault).text,
               if trim val = (s.words.getD s.currentIndex wdefault).text
               then WordStatus.correct else WordStatus.incorrect⟩).set
                (s.currentIndex + 1)
                ⟨((s.words.set s.currentIndex
                    ⟨(s.words.getD s.currentIndex wdefault).text,
                     if trim val = (s.words.getD s.currentIndex wdefault).text
                     then WordStatus.correct else WordStatus.incorrect⟩).getD
                      (s.currentIndex + 1) wdefault).text, WordStatus.active⟩
            else s.words.set s.currentIndex
              ⟨(s.words.getD s.currentIndex wdefault).text,
               if trim val = (s.words.getD s.currentIndex wdefault).text
               then WordStatus.correct else WordStatus.incorrect⟩).length
          = s.words.length := by
        rw [length_if_set, List.length_set]
      rw [take_append_of_length _ _ _ h2, map_text_if_set]
      exact map_text_set s.words s.currentIndex _
    · have h2 : (if s.currentIndex + 1 < s.words.length
            then (s.words.set s.currentIndex
              ⟨(s.words.getD s.currentIndex wdefault).text,
               if trim val = (s.words.getD s.currentIndex wdefault).text
               then WordStatus.correct else WordStatus.incorrect⟩).set
                (s.currentIndex + 1)
                ⟨((s.words.set s.currentIndex
                    ⟨(s.words.getD s.currentIndex wdefault).text,
                     if trim val = (s.words.getD s.currentIndex wdefault).text
                     then WordStatus.correct else WordStatus.incorrect⟩).getD
                      (s.currentIndex + 1) wdefault).text, WordStatus.active⟩
            else s.words.set s.currentIndex
              ⟨(s.words.getD s.currentIndex wdefault).text,
               if trim val = (s.words.getD s.currentIndex wdefault).text
               then WordStatus.correct else WordStatus.incorrect⟩).length
          = s.words.length := by
        rw [length_if_set, List.length_set]
      rw [drop_append_of_length _ _ _ h2]
      have hm : (List.map (fun w => WordObject.mk w WordStatus.pending)
            (shuffleArray DEFAULT_WORDS rand)).map WordObject.text
          = shuffleArray DEFAULT_WORDS rand := by
        simp [List.map_map, Function.comp_def]
      rw [hm]
      exact shuffleArray_perm DEFAULT_WORDS rand
  · intro hle
    rw [if_neg (not_lt.mpr hle)]
    refine ⟨?_, ?_⟩
    · rw [length_if_set, List.length_set]
    · rw [map_text_if_set]
      exact map_text_set s.words s.currentIndex _

theorem extension_policy_witness :
    sesTiny.status ≠ GameStatus.finished ∧
    endsWithSpace (strOf r"aa ") = true ∧
    sesTiny.currentIndex + 10 > sesTiny.words.length ∧
    (handleInputChange (strOf r"aa ") idRand sesTiny).words.length
        = sesTiny.words.length + DEFAULT_WORDS.length :=
  ⟨by decide, by decide, by decide,
   ((extension_policy sesTiny (strOf r"aa ") idRand (by decide) (by decide)).1
      (by decide)).1⟩

/-! Part: The end-to-end scenario (C4) -/

/-- A 15-second game on the default words (identity shuffle): one
correct submission of `"the "`, then 15 timer ticks. -/
def scenarioFinal : Session :=
  runOps (initGame DEFAULT_WORDS idRand blankSession)
    (Op.submit (strOf r"the ") idRand :: List.replicate 15 Op.tick)

/-- Default `ScoreEntry` used for reads from the history list. -/
def emptyEntry : ScoreEntry :=
  { topic := [], wpm := 0, accuracy := 0, correctWords := 0,
    incorrectWords := 0, totalKeystrokes := 0, timeSpent := 0 }

theorem calculateWPM_one_fifteen : calculateWPM 1 15 = 4 := by
  norm_num [calculateWPM, jsRound]

theorem calculateAccuracy_one_zero : calculateAccuracy 1 0 = 100 := by
  norm_num [calculateAccuracy, jsRound]

/-- **C4**: `endGame` computes the final wpm from `correctWords` over
the full configured duration (not elapsed-so-far) and the final
accuracy from the two counters, appending exactly one `ScoreEntry` to
the history; in the concrete scenario — duration 15 s, one correct
submission of `"the "`, 15 ticks — the session finishes and the single
emitted entry has `correctWords = 1`, `incorrectWords = 0`, `wpm = 4`,
`accuracy = 100`, `timeSpent = 15`. -/
theorem endGame_emits_final_score :
    (∀ s : Session,
      (endGame s).stats.wpm = calculateWPM s.stats.correctWords s.duration ∧
      (endGame s).stats.accuracy
          = calculateAccuracy s.stats.correctWords s.stats.incorrectWords ∧
      (endGame s).history = s.history ++
        [{ topic := s.selectedTopic,
           wpm := calculateWPM s.stats.correctWords s.duration,
           accuracy := calculateAccuracy s.stats.correctWords
             s.stats.incorrectWords,
           correctWords := s.stats.correctWords,
           incorrectWords := s.stats.incorrectWords,
           totalKeystrokes := s.stats.totalKeystrokes,
           timeSpent := s.duration }]) ∧
    scenarioFinal.status = .finished ∧
    scenarioFinal.history.map
        (fun e => (e.correctWords, e.incorrectWords, e.timeSpent))
      = [(1, 0, 15)] ∧
    (scenarioFinal.history.getD 0 emptyEntry).wpm = 4 ∧
    (scenarioFinal.history.getD 0 emptyEntry).accuracy = 100 := by
  refine ⟨fun s => ⟨rfl, rfl, rfl⟩, by decide, by decide, ?_, ?_⟩
  · have h : (scenarioFinal.history.getD 0 emptyEntry).wpm
        = calculateWPM 1 15 := rfl
    rw [h, calculateWPM_one_fifteen]
  · have h : (scenarioFinal.history.getD 0 emptyEntry).accuracy
        = calculateAccuracy 1 0 := rfl
    rw [h, calculateAccuracy_one_zero]

end FastTyping
